import Mathlib

/-!
Verification of the multihead cloze-template data collation and constrained
generation pipeline of the mhtabby repository (src/qlora.py, src/sample.py).

The embedding models Python strings as Lean strings (lists of characters),
token ids as Nat, tensors as lists, and Python exceptions as an Except error
value.  Floating point cosine similarities are compared in exact arithmetic:
for nonnegative integer vectors, cos(g,a) > cos(g,b) holds exactly when
dot(g,a)^2 * n(b) > dot(g,b)^2 * n(a), where n(v) is the squared norm of v
with the zero-norm-replaced-by-one convention of sklearn normalize.
-/

namespace Mhtabby

/-! ## Text model

Python str operations used by the collator, on Lean strings. -/

/-- Characters that Python str.strip removes, modelled by Char.isWhitespace. -/
def stripChars (l : List Char) : List Char :=
  ((l.dropWhile Char.isWhitespace).reverse.dropWhile Char.isWhitespace).reverse

/-- Python str.strip: remove leading and trailing whitespace. -/
def pyStrip (s : String) : String := String.mk (stripChars s.data)

/-- Helper splitting a character list into maximal whitespace-free words. -/
def wordsAux (cur : List Char) (acc : List (List Char)) : List Char → List (List Char)
  | [] => if cur = [] then acc.reverse else (cur.reverse :: acc).reverse
  | c :: rest =>
    if Char.isWhitespace c then
      if cur = [] then wordsAux [] acc rest else wordsAux [] (cur.reverse :: acc) rest
    else wordsAux (c :: cur) acc rest

/-- Whitespace word splitting, used by the concrete example tokenizers. -/
def words (s : String) : List String := (wordsAux [] [] s.data).map String.mk

/-- Abstract tokenizer capability: exactly the pieces of the HuggingFace
tokenizer object that DataCollatorForMHLM and the sampling loop consume.
tokenize models calling the tokenizer on one string with
add_special_tokens set to False and no padding. -/
structure Tokenizer where
  tokenize : String → List Nat
  bos_token : String
  eos_token : String
  cls_token : String
  bos_token_id : Nat
  pad_token_id : Nat

/-- Fixed-width tokenization of one string: the tokenizer call with
truncation to max_length = mcl and right padding with the pad token
(padding = max_length, padding_side = right), as used for column values
in qlora.py line 589 and for candidate strings in sample.py line 125. -/
def tokFixed (tok : Tokenizer) (mcl : Nat) (s : String) : List Nat :=
  (tok.tokenize s).take mcl
    ++ List.replicate (mcl - ((tok.tokenize s).take mcl).length) tok.pad_token_id

/-! ## Template Builder (DataCollatorForMHLM.__init__ and get_templates,
qlora.py lines 532-573) -/

/-- Python exceptions that the modelled code paths can raise.
keyError: pandas drop of a missing column.
valueError: the HuggingFace tokenizer called on a non-string cell
(the NaN that pandas fills in for a record that misses a column).
shapeError: torch reshape with a mismatched element count.
indexError: indexing chunk 0 of the prompt template past its length.
catError: torch.cat applied to a zero-dimensional tensor (the result of
squeeze on a 1 x 1 block, which happens exactly when max_column_len = 1
and there is at least one column). -/
inductive PyError where
  | keyError
  | valueError
  | shapeError
  | indexError
  | catError
deriving DecidableEq

/-- Marker insertion of DataCollatorForMHLM.__init__ (qlora.py lines 545-549):
every chunk after index 0 is prefixed with the cls (column separator) token
and stripped, chunk 0 is prefixed with the bos token and stripped, and the
eos token is appended to the final chunk.  The loop over indices 1..N and the
assignment to chunk 0 touch disjoint positions except for a length-one
prompt, where only the bos and eos markers apply, as here. -/
def markPrompt (tok : Tokenizer) (prompt : List String) : List String :=
  let s2 := match prompt with
    | [] => []
    | p0 :: rest =>
        pyStrip (tok.bos_token ++ p0) :: rest.map (fun s => pyStrip (tok.cls_token ++ s))
  match s2.getLast? with
  | none => []
  | some l => s2.dropLast ++ [l ++ tok.eos_token]

/-- State of DataCollatorForMHLM after __init__ that the verified claims
depend on: the tokenizer, the tokenized marked prompt chunks (prompt_ids),
num_cols = len(prompt) - 1 and max_column_len.  The vocab_masks field and
col_tok are stored by __init__ but never inspected by any claimed property,
so they are omitted here. -/
structure Collator where
  tok : Tokenizer
  prompt_ids : List (List Nat)
  num_cols : Nat
  max_column_len : Nat

/-- Construction of the collator (qlora.py lines 535-561).  The Python
__init__ raises an IndexError on an empty prompt list, so the theorems about
collators assume a nonempty prompt. -/
def mkCollator (tok : Tokenizer) (prompt : List String) (mcl : Nat) : Collator :=
  { tok := tok
    prompt_ids := (markPrompt tok prompt).map tok.tokenize
    num_cols := prompt.length - 1
    max_column_len := mcl }

/-- The prompt_head_inds of __init__ (qlora.py lines 556-557): one list of
zeros per prompt chunk, matching its token length, with the first entry of
the chunk 0 list removed (the dropped bos position accounting for the model
left shift). -/
def promptHeadInds (c : Collator) : List (List Nat) :=
  match c.prompt_ids with
  | [] => []
  | c0 :: rest =>
      (List.replicate c0.length (0 : Nat)).drop 1
        :: rest.map (fun ch => List.replicate ch.length (0 : Nat))

/-- The col_head_inds of get_templates (qlora.py line 566): for every column
k = 1..num_cols, a block of max_column_len copies of k. -/
def colHeadInds (c : Collator) : List (List Nat) :=
  (List.range c.num_cols).map (fun k => List.replicate c.max_column_len (k + 1))

/-- The head_inds sequence of get_templates (qlora.py line 567): the prompt
head lists interleaved with the column head blocks (a python zip, which stops
at the shorter list) followed by the final prompt head list. -/
def headList (c : Collator) : List Nat :=
  ((((promptHeadInds c).zip (colHeadInds c)).map (fun p => p.1 ++ p.2)).flatten)
    ++ (promptHeadInds c).getLastD []

/-- Scatter assignment of qlora.py line 572: walk the head list and fill each
zero position with the next literal token; nonzero positions keep the value 0
of the zero-initialized template.  The torch scatter requires the zero count
to equal the literal count; the development proves that equality separately
(headList_count_zero) for every collator the claims quantify over, so the
total definition agrees with the source on those inputs. -/
def fillZeros : List Nat → List Nat → List Nat
  | [], _ => []
  | h :: t, lits =>
    if h = 0 then
      match lits with
      | [] => 0 :: fillZeros t []
      | l :: ls => l :: fillZeros t ls
    else 0 :: fillZeros t lits

/-- The prompt_template of get_templates (qlora.py lines 571-572): zeros of
the head list length, with the literal chunk tokens (all chunks concatenated,
first token dropped) written at the positions where the head index is 0. -/
def promptTemplateList (c : Collator) : List Nat :=
  fillZeros (headList c) (c.prompt_ids.flatten.drop 1)

/-- DataCollatorForMHLM.get_templates (qlora.py lines 564-573), returning the
head_inds and prompt_template pair (vocab_masks and max_column_len are passed
through unchanged and carry no claimed property).  When max_column_len = 1
and num_cols is positive, squeeze collapses each 1 x 1 column block to a
zero-dimensional tensor and torch.cat raises a RuntimeError, modelled as
catError. -/
def getTemplates (c : Collator) : Except PyError (List Nat × List Nat) :=
  if c.max_column_len = 1 ∧ 0 < c.num_cols then Except.error PyError.catError
  else Except.ok (headList c, promptTemplateList c)

/-! ## Batch Layout Engine (DataCollatorForMHLM.__call__,
qlora.py lines 576-631) -/

/-- One batch record: the ordered association list of field name to cell
value of one row handed to the collator.  Keys are unique (the rows come
from Python dicts). -/
abbrev Record := List (String × String)

/-- Dictionary lookup on a record. -/
def rlookup (k : String) : Record → Option String
  | [] => none
  | (k2, v) :: rest => if k2 = k then some v else rlookup k rest

/-- Worker for dfColumns: fold the records, appending the not yet seen keys
of each in order. -/
def dfGo (acc : List String) : List Record → List String
  | [] => acc
  | r :: rest => dfGo (acc ++ ((r.map Prod.fst).filter (fun k => decide (k ∉ acc)))) rest

/-- Column list of pd.DataFrame(instances): the union of the record keys in
first appearance order. -/
def dfColumns (recs : List Record) : List String := dfGo [] recs

/-- Option sequencing: some of the list of values when every entry is some,
otherwise none.  Models the HuggingFace tokenizer raising a ValueError as
soon as the flattened cell list contains a non-string (a pandas NaN standing
for a missing field). -/
def allSome : List (Option String) → Option (List String)
  | [] => some []
  | none :: _ => none
  | some a :: t =>
    match allSome t with
    | none => none
    | some l => some (a :: l)

/-- One row of the labels tensor (qlora.py lines 600-606): for every column
index i in order, the literal chunk i tokens followed by the column i token
span of this row, and after the loop the final literal chunk. -/
def rowOf (chunks : List (List Nat)) (n : Nat) (spans : List (List Nat)) : List Nat :=
  (((List.range n).map (fun i => chunks.getD i [] ++ spans.getD i [])).flatten)
    ++ chunks.getLastD []

/-- Start offset of the column k (0-based) token span inside an assembled
row: the token lengths of the literal chunks 0..k plus k earlier fixed-width
column spans.  These are the fixed boundaries determined by the literal chunk
token lengths and max_column_len. -/
def startOf (chunks : List (List Nat)) (mcl k : Nat) : Nat :=
  (((List.range (k + 1)).map (fun i => (chunks.getD i []).length)).sum) + k * mcl

/-- Result dictionary of __call__: input_ids, attention_mask, and the labels
entry that is only present in the labeled mode. -/
structure CallOutput where
  input_ids : List (List Nat)
  attention_mask : List (List Nat)
  labels : Option (List (List Nat))
deriving DecidableEq

/-- DataCollatorForMHLM.__call__ (qlora.py lines 576-631).
Step by step against the source:
pandas assembles the records into a frame whose columns are dfColumns;
include_labels is the column count test of lines 581-584; line 585 drops the
length column and raises a KeyError when no record carries it; in the
labeled mode the cell values are flattened row-major, tokenized to
fixed width (a ValueError on any missing cell), reshaped to
(batch, num_cols, max_column_len) - the element count check of reshape -
and interleaved with the literal chunks into labels; input_ids is a deep
copy of labels and attention_mask all ones of the same shape.  In the
unlabeled mode input_ids is the bos token id followed by the second token of
chunk 0, tiled over the batch (an IndexError when chunk 0 has fewer than two
tokens), attention_mask all ones, and no labels entry. -/
def collatorCall (c : Collator) (recs : List Record) : Except PyError CallOutput :=
  let cols := dfColumns recs
  let includeLabels : Bool := decide (1 < cols.length)
  if "length" ∈ cols then
    let cols2 := cols.filter (fun k => decide (k ≠ "length"))
    if includeLabels then
      match allSome (recs.flatMap (fun r => cols2.map (fun k => rlookup k r))) with
      | none => Except.error PyError.valueError
      | some cells =>
        if cells.length * c.max_column_len
            = recs.length * c.num_cols * c.max_column_len then
          let toks := cells.map (tokFixed c.tok c.max_column_len)
          let labels := (List.range recs.length).map
            (fun b => rowOf c.prompt_ids c.num_cols
              ((toks.drop (b * c.num_cols)).take c.num_cols))
          Except.ok
            { input_ids := labels
              attention_mask := labels.map (fun row => List.replicate row.length 1)
              labels := some labels }
        else Except.error PyError.shapeError
    else
      if 2 ≤ (c.prompt_ids.getD 0 []).length then
        Except.ok
          { input_ids :=
              List.replicate recs.length
                [c.tok.bos_token_id, (c.prompt_ids.getD 0 []).getD 1 0]
            attention_mask := List.replicate recs.length [1, 1]
            labels := none }
      else Except.error PyError.indexError
  else Except.error PyError.keyError

/-- Values of the second list at the positions where the first list holds 0,
in order.  Used to state which template positions carry literal prompt
tokens. -/
def selectWhereZero (heads vals : List Nat) : List Nat :=
  (heads.zip vals).filterMap (fun p => if p.1 = 0 then some p.2 else none)

/-- Relation between two batches: same shape and same keys everywhere, with
all values equal except possibly the value under the length key. -/
def sameExceptLength (r r2 : Record) : Prop :=
  r.map Prod.fst = r2.map Prod.fst ∧ ∀ k, k ≠ "length" → rlookup k r = rlookup k r2

/-! ## Value Matcher (sample.py lines 123-128, qlora.py lines 871-876) -/

/-- Dot product of two token id vectors (componentwise, stopping at the
shorter vector, as numpy does for equal-width rows). -/
def dot : List Nat → List Nat → Nat
  | a :: as2, b :: bs => a * b + dot as2 bs
  | _, _ => 0

/-- Squared euclidean norm. -/
def normSq (v : List Nat) : Nat := dot v v

/-- Squared norm with the sklearn normalize convention: a zero row norm is
replaced by one, so a zero vector keeps cosine similarity 0 against
everything. -/
def effNormSq (v : List Nat) : Nat := if normSq v = 0 then 1 else normSq v

/-- Exact comparison cos(g,a) > cos(g,b) for nonnegative integer vectors:
clearing the (positive) denominators and squaring (all quantities are
nonnegative) gives dot(g,a)^2 * n(b) > dot(g,b)^2 * n(a) with n = effNormSq.
This is the comparison the argmax of the cosine similarity row performs. -/
def simGTb (g a b : List Nat) : Bool :=
  decide (dot g b ^ 2 * effNormSq a < dot g a ^ 2 * effNormSq b)

/-- Exact comparison cos(g,a) >= cos(g,b), same clearing of denominators. -/
def simGE (g a b : List Nat) : Prop :=
  dot g b ^ 2 * effNormSq a ≤ dot g a ^ 2 * effNormSq b

/-- Worker of the first-maximum argmax: scan the remaining candidates,
replacing the current best only on a strictly larger similarity, exactly the
numpy argmax tie-break (first occurrence wins). -/
def amGo (g : List Nat) (bi : Nat) (bv : List Nat) (i : Nat) :
    List (List Nat) → Nat × List Nat
  | [] => (bi, bv)
  | cnd :: rest =>
    if simGTb g cnd bv then amGo g i cnd (i + 1) rest
    else amGo g bi bv (i + 1) rest

/-- Index of the first candidate attaining the maximal cosine similarity
against g, as computed by cosine_similarity(...).argmax(axis=1) for one
generated span; none on an empty candidate list (numpy raises there). -/
def argmaxSim (g : List Nat) : List (List Nat) → Option Nat
  | [] => none
  | cnd :: rest => some (amGo g 0 cnd 1 rest).1

/-- The value matcher of the sampling loop: tokenize every candidate string
to fixed width and return the candidate at the argmax of the cosine
similarity row of the generated span
(options_str[cosine_similarity(span, options).argmax()]). -/
def bestMatch (tok : Tokenizer) (mcl : Nat) (g : List Nat) (options : List String) :
    Option String :=
  (argmaxSim g (options.map (tokFixed tok mcl))).map (fun i => options.getD i "")

/-! ## Generation sampling loop (sample.py lines 112-131,
qlora.py lines 861-879) -/

/-- The preds update of one column iteration: preds[i].extend(new). -/
def colStep (preds : List (List String)) (i : Nat) (new : List String) :
    List (List String) :=
  preds.set i (preds.getD i [] ++ new)

/-- One batch iteration of the sampling loop: for every column index in
order, extend that column of preds with the freshly matched predictions and
flush (overwrite the output with the whole accumulated table).  The state
carries the current preds and the list of all flushed snapshots. -/
def batchStep (cols : Nat) (gen : Nat → List String)
    (st : List (List String) × List (List (List String))) :
    List (List String) × List (List (List String)) :=
  (List.range cols).foldl
    (fun st2 i =>
      let p := colStep st2.1 i (gen i)
      (p, st2.2 ++ [p]))
    st

/-- The whole sampling loop: preds starts as one empty list per column; every
batch runs the inner column loop.  gen b i abstracts the matched predictions
that batch b contributes to column i (the model generation followed by the
value matcher).  Returns the final preds table and every flushed snapshot in
order. -/
def runGenLoop (nb cols : Nat) (gen : Nat → Nat → List String) :
    List (List String) × List (List (List String)) :=
  (List.range nb).foldl (fun st b => batchStep cols (gen b) st)
    (List.replicate cols [], [])

/-- Snapshot s1 is a columnwise truncation of snapshot s2: same column count
and every column sequence of s1 is an initial segment of the one in s2. -/
def tableLe (s1 s2 : List (List String)) : Prop :=
  s1.length = s2.length ∧ ∀ i, s1.getD i [] <+: s2.getD i []

/-! ## Structural recursion forms used by the proofs -/

/-- Recursive form of the zip-interleave-append of headList; proved equal to
it (for the length-consistent collators of the claims) in
zipflat_eq_interAux. -/
def interAux : List (List Nat) → List (List Nat) → List Nat
  | ph, [] => ph.getLastD []
  | ph, y :: ys => ph.getD 0 [] ++ y ++ interAux (ph.drop 1) ys

/-- Recursive form of rowOf; proved equal to it (for length-consistent
chunk lists) in rowOf_eq_asmAux. -/
def asmAux : List (List Nat) → Nat → List (List Nat) → List Nat
  | chunks, 0, _ => chunks.getLastD []
  | chunks, n + 1, spans =>
      chunks.getD 0 [] ++ spans.getD 0 []
        ++ asmAux (chunks.drop 1) n (spans.drop 1)

/-! ## Concrete instances used by witnesses and counterexamples -/

/-- Lookup in a toy vocabulary. -/
def lookupNat (k : String) : List (String × Nat) → Option Nat
  | [] => none
  | (k2, v) :: rest => if k2 = k then some v else lookupNat k rest

/-- Toy vocabulary for the example tokenizer. -/
def exVocab : List (String × Nat) :=
  [("BOS", 1), ("EOS", 2), ("SEP", 4), ("x", 5), ("a", 10), ("b", 11),
   ("v1", 21), ("v2", 22)]

/-- Concrete whitespace tokenizer over the toy vocabulary; unknown words map
to id 9, the pad id is 0 (the padding the source comments describe). -/
def exTok : Tokenizer :=
  { tokenize := fun s => (words s).map (fun w => (lookupNat w exVocab).getD 9)
    bos_token := "BOS "
    eos_token := " EOS"
    cls_token := " SEP "
    bos_token_id := 1
    pad_token_id := 0 }

/-- Concrete two-chunk prompt (one column slot). -/
def exPrompt : List String := ["a", " b"]

/-- Concrete collator: prompt_ids = [[1, 10], [4, 11, 2]], one column,
max_column_len 2. -/
def exC : Collator := mkCollator exTok exPrompt 2

/-- Concrete labeled batch of one record. -/
def exRecsA : List Record := [[("length", "0"), ("c1", "v1")]]

/-- Concrete unlabeled (generation seed) batch of two records. -/
def exRecsB : List Record := [[("length", "0")], [("length", "5")]]

/-! # Theorems

Generic list lemmas used throughout. -/

theorem getD_succ_drop {α : Type} (l : List α) (i : Nat) (d : α) :
    l.getD (i + 1) d = (l.drop 1).getD i d := by
  cases l <;> simp

theorem mem_getD_zero {α : Type} (l : List (List α)) (x : α) (h : x ∈ l.getD 0 []) :
    ∃ m ∈ l, x ∈ m := by
  cases l with
  | nil => simp at h
  | cons a t => exact ⟨a, by simp, h⟩

theorem getLastD_congr {α : Type} (a : α) (t : List α) (d1 d2 : α) :
    (a :: t).getLastD d1 = (a :: t).getLastD d2 := by
  rw [List.getLastD_cons, List.getLastD_cons]

theorem mem_getLastD {α : Type} : ∀ (l : List (List α)) (x : α),
    x ∈ l.getLastD [] → ∃ m ∈ l, x ∈ m
  | [], x, h => by simp at h
  | [a], x, h => ⟨a, by simp, by simpa [List.getLastD_cons] using h⟩
  | a :: b :: t, x, h => by
    have h2 : x ∈ (b :: t).getLastD [] := by
      rw [getLastD_congr b t [] a]
      simpa [List.getLastD_cons] using h
    obtain ⟨m, hm, hx⟩ := mem_getLastD (b :: t) x h2
    exact ⟨m, by simp [List.mem_cons] at hm ⊢; tauto, hx⟩

theorem getD_set_self {α : Type} : ∀ (l : List α) (i : Nat) (a d : α), i < l.length →
    (l.set i a).getD i d = a
  | [], i, a, d, h => by simp at h
  | x :: t, 0, a, d, _ => rfl
  | x :: t, i + 1, a, d, h => by
    simpa using getD_set_self t i a d (by simpa using h)

theorem getD_set_ne {α : Type} (l : List α) (i j : Nat) (a d : α) (h : i ≠ j) :
    (l.set i a).getD j d = l.getD j d := by
  simp [List.getD_eq_getElem?_getD, List.getElem?_set_ne h]

theorem getD_map {α β : Type} (f : α → β) :
    ∀ (l : List α) (i : Nat) (d : β) (d2 : α), i < l.length →
      (l.map f).getD i d = f (l.getD i d2)
  | [], i, d, d2, h => by simp at h
  | x :: t, 0, d, d2, _ => rfl
  | x :: t, i + 1, d, d2, h => by
    simpa using getD_map f t i d d2 (by simpa using h)

theorem getD_take {α : Type} : ∀ (l : List α) (n i : Nat) (d : α), i < n →
    (l.take n).getD i d = l.getD i d
  | [], n, i, d, _ => by simp
  | x :: t, 0, i, d, h => by omega
  | x :: t, n + 1, 0, d, _ => rfl
  | x :: t, n + 1, i + 1, d, h => by
    simp only [List.take_cons, List.getD_cons_succ]
    exact getD_take t n i d (by omega)

theorem getD_drop {α : Type} : ∀ (l : List α) (m i : Nat) (d : α),
    (l.drop m).getD i d = l.getD (m + i) d
  | [], m, i, d => by simp
  | x :: t, 0, i, d => by simp
  | x :: t, m + 1, i, d => by
    simp only [List.drop_succ_cons, List.getD_cons_succ, Nat.succ_add]
    exact getD_drop t m i d

theorem getD_range (n i : Nat) (h : i < n) : (List.range n).getD i 0 = i := by
  simp [List.getD_eq_getElem?_getD, List.getElem?_range h]

theorem two_mem_one_lt {α : Type} (l : List α) (a b : α)
    (ha : a ∈ l) (hb : b ∈ l) (hne : a ≠ b) : 1 < l.length := by
  match l with
  | [] => simp at ha
  | [x] =>
    simp at ha hb
    exact absurd (ha.trans hb.symm) hne
  | x :: y :: t => simp only [List.length_cons]; omega

/-! ## Template Builder lemmas -/

theorem zipflat_eq_interAux : ∀ (colh ph : List (List Nat)),
    ph.length = colh.length + 1 →
    ((ph.zip colh).map (fun p => p.1 ++ p.2)).flatten ++ ph.getLastD []
      = interAux ph colh
  | [], ph, h => by
    obtain ⟨p, rfl⟩ := List.length_eq_one.mp h
    simp [interAux]
  | y :: ys, [], h => by simp at h
  | y :: ys, p0 :: pt, h => by
    have hpt : pt.length = ys.length + 1 := by simpa using h
    have hne : pt ≠ [] := by
      intro hc
      rw [hc] at hpt
      simp at hpt
    obtain ⟨q, qt, rfl⟩ := List.exists_cons_of_ne_nil hne
    simp only [interAux, List.zip_cons_cons, List.map_cons, List.flatten_cons,
      List.getD_cons_zero, List.drop_one, List.tail_cons]
    rw [List.getLastD_cons, getLastD_congr q qt p0 []]
    rw [List.append_assoc]
    rw [zipflat_eq_interAux ys (q :: qt) hpt]

theorem interAux_length : ∀ (colh ph : List (List Nat)),
    ph.length = colh.length + 1 →
    (interAux ph colh).length
      = (ph.map List.length).sum + (colh.map List.length).sum
  | [], ph, h => by
    obtain ⟨p, rfl⟩ := List.length_eq_one.mp h
    simp [interAux]
  | y :: ys, [], h => by simp at h
  | y :: ys, p0 :: pt, h => by
    have hpt : pt.length = ys.length + 1 := by simpa using h
    simp only [interAux, List.getD_cons_zero, List.drop_one, List.tail_cons,
      List.length_append, List.map_cons, List.sum_cons]
    rw [interAux_length ys pt hpt]
    omega

theorem interAux_count_zero : ∀ (colh ph : List (List Nat)),
    ph.length = colh.length + 1 →
    (∀ l ∈ ph, ∀ x ∈ l, x = 0) →
    (∀ l ∈ colh, ∀ x ∈ l, x ≠ 0) →
    (interAux ph colh).count 0 = (ph.map List.length).sum
  | [], ph, h, hph, _ => by
    obtain ⟨p, rfl⟩ := List.length_eq_one.mp h
    simp only [interAux, List.getLastD_cons, List.getLastD_nil, List.map_cons,
      List.map_nil, List.sum_cons, List.sum_nil]
    rw [List.count_eq_length.mpr (fun b hb => ((hph p (by simp) b hb)).symm)]
    omega
  | y :: ys, [], h, _, _ => by simp at h
  | y :: ys, p0 :: pt, h, hph, hcol => by
    have hpt : pt.length = ys.length + 1 := by simpa using h
    simp only [interAux, List.getD_cons_zero, List.drop_one, List.tail_cons,
      List.count_append, List.map_cons, List.sum_cons]
    rw [List.count_eq_length.mpr (fun b hb => ((hph p0 (by simp) b hb)).symm)]
    rw [List.count_eq_zero.mpr (fun hy => (hcol y (by simp) 0 hy) rfl)]
    rw [interAux_count_zero ys pt hpt (fun l hl => hph l (by simp [hl]))
      (fun l hl => hcol l (by simp [hl]))]
    omega

theorem interAux_mem : ∀ (colh ph : List (List Nat)) (x : Nat),
    x ∈ interAux ph colh →
    (∃ l ∈ ph, x ∈ l) ∨ (∃ l ∈ colh, x ∈ l)
  | [], ph, x, h => by
    rcases ph with _ | ⟨a, t⟩
    · simp [interAux] at h
    · exact Or.inl (mem_getLastD (a :: t) x h)
  | y :: ys, ph, x, h => by
    simp only [interAux, List.mem_append] at h
    rcases h with (h | h) | h
    · exact Or.inl (mem_getD_zero ph x h)
    · exact Or.inr ⟨y, by simp, h⟩
    · rcases interAux_mem ys (ph.drop 1) x h with ⟨l, hl, hx⟩ | ⟨l, hl, hx⟩
      · exact Or.inl ⟨l, List.mem_of_mem_drop hl, hx⟩
      · exact Or.inr ⟨l, by simp [hl], hx⟩

theorem fillZeros_length : ∀ (h lits : List Nat),
    (fillZeros h lits).length = h.length
  | [], _ => rfl
  | a :: t, lits => by
    by_cases ha : a = 0
    · rcases lits with _ | ⟨l, ls⟩ <;>
        simp [fillZeros, ha, fillZeros_length t]
    · simp [fillZeros, ha, fillZeros_length t lits]

theorem select_fillZeros : ∀ (h lits : List Nat),
    h.count 0 = lits.length →
    selectWhereZero h (fillZeros h lits) = lits
  | [], lits, hc => by
    simp at hc
    simp [selectWhereZero, List.length_eq_zero.mp hc.symm]
  | a :: t, lits, hc => by
    by_cases ha : a = 0
    · subst ha

      rcases lits with _ | ⟨l, ls⟩
      · simp [List.count_cons] at hc
      · have hct : t.count 0 = ls.length := by
          simp [List.count_cons] at hc
          omega
        have ih := select_fillZeros t ls hct
        show selectWhereZero (0 :: t) (l :: fillZeros t ls) = l :: ls
        simpa [selectWhereZero, List.zip_cons_cons, List.filterMap_cons] using ih
    · have hct : t.count 0 = lits.length := by
        simpa [List.count_cons, ha] using hc
      simp only [fillZeros, if_neg ha, selectWhereZero, List.zip_cons_cons,
        List.filterMap_cons, if_neg ha]
      exact select_fillZeros t lits hct

/-! ## markPrompt and collator shape lemmas -/

theorem markPrompt_single (tok : Tokenizer) (p : String) :
    markPrompt tok [p] = [pyStrip (tok.bos_token ++ p) ++ tok.eos_token] := rfl

theorem markPrompt_decomp (tok : Tokenizer) (p0 pl : String) (mid : List String) :
    markPrompt tok (p0 :: (mid ++ [pl]))
      = pyStrip (tok.bos_token ++ p0)
          :: (mid.map (fun s => pyStrip (tok.cls_token ++ s))
            ++ [pyStrip (tok.cls_token ++ pl) ++ tok.eos_token]) := by
  unfold markPrompt
  simp only [List.map_append, List.map_cons, List.map_nil]
  rw [show pyStrip (tok.bos_token ++ p0)
        :: (mid.map (fun s => pyStrip (tok.cls_token ++ s))
          ++ [pyStrip (tok.cls_token ++ pl)])
      = (pyStrip (tok.bos_token ++ p0)
          :: mid.map (fun s => pyStrip (tok.cls_token ++ s)))
        ++ [pyStrip (tok.cls_token ++ pl)] from rfl]
  rw [List.getLast?_concat, List.dropLast_concat]
  simp

theorem markPrompt_length (tok : Tokenizer) (prompt : List String)
    (h : prompt ≠ []) : (markPrompt tok prompt).length = prompt.length := by
  obtain ⟨p0, rest, rfl⟩ := List.exists_cons_of_ne_nil h
  rcases List.eq_nil_or_concat rest with rfl | ⟨mid, pl, rfl⟩
  · rfl
  · rw [List.concat_eq_append, markPrompt_decomp]
    simp

theorem mk_prompt_ids_length (tok : Tokenizer) (prompt : List String) (mcl : Nat)
    (h : prompt ≠ []) :
    (mkCollator tok prompt mcl).prompt_ids.length = prompt.length := by
  simp [mkCollator, markPrompt_length tok prompt h]

theorem mk_consistent (tok : Tokenizer) (prompt : List String) (mcl : Nat)
    (h : prompt ≠ []) :
    (mkCollator tok prompt mcl).prompt_ids.length
      = (mkCollator tok prompt mcl).num_cols + 1 := by
  rw [mk_prompt_ids_length tok prompt mcl h]
  show prompt.length = prompt.length - 1 + 1
  have hp : 0 < prompt.length := List.length_pos.mpr h
  omega

/-! ## headList and promptTemplateList lemmas -/

theorem promptHeadInds_length (c : Collator) :
    (promptHeadInds c).length = c.prompt_ids.length := by
  unfold promptHeadInds
  rcases c.prompt_ids with _ | ⟨p0, rest⟩ <;> simp

theorem promptHeadInds_zeros (c : Collator) :
    ∀ l ∈ promptHeadInds c, ∀ x ∈ l, x = 0 := by
  unfold promptHeadInds
  rcases c.prompt_ids with _ | ⟨p0, rest⟩
  · simp
  · intro l hl x hx
    simp only [List.mem_cons] at hl
    rcases hl with rfl | hl
    · exact List.eq_of_mem_replicate (List.mem_of_mem_drop hx)
    · obtain ⟨ch, _, rfl⟩ := List.mem_map.mp hl
      exact List.eq_of_mem_replicate hx

theorem promptHeadInds_sum (c : Collator)
    (h0 : c.prompt_ids.getD 0 [] ≠ []) (hne : c.prompt_ids ≠ []) :
    ((promptHeadInds c).map List.length).sum + 1
      = (c.prompt_ids.map List.length).sum := by
  unfold promptHeadInds
  rcases hpi : c.prompt_ids with _ | ⟨p0, rest⟩
  · exact absurd hpi hne
  · have hp0 : 1 ≤ p0.length := by
      rw [hpi] at h0
      have := List.length_pos.mpr h0
      simpa using this
    simp only [List.map_cons, List.sum_cons, List.length_drop,
      List.length_replicate, List.map_map]
    have : (rest.map (List.length ∘ fun ch => List.replicate ch.length (0 : Nat)))
        = rest.map List.length := by
      apply List.map_congr_left
      intro a _
      simp
    rw [this]
    omega

theorem colHeadInds_length (c : Collator) :
    (colHeadInds c).length = c.num_cols := by
  simp [colHeadInds]

theorem colHeadInds_sum (c : Collator) :
    ((colHeadInds c).map List.length).sum = c.num_cols * c.max_column_len := by
  unfold colHeadInds
  rw [List.map_map]
  have : ((List.range c.num_cols).map
      (List.length ∘ fun k => List.replicate c.max_column_len (k + 1)))
      = (List.range c.num_cols).map (fun _ => c.max_column_len) := by
    apply List.map_congr_left
    intro a _
    simp
  rw [this, List.map_const', List.sum_replicate, List.length_range, smul_eq_mul]

theorem colHeadInds_mem (c : Collator) :
    ∀ l ∈ colHeadInds c, ∀ x ∈ l, 1 ≤ x ∧ x ≤ c.num_cols := by
  intro l hl x hx
  obtain ⟨k, hk, rfl⟩ := List.mem_map.mp hl
  have hx2 := List.eq_of_mem_replicate hx
  have hk2 := List.mem_range.mp hk
  omega

theorem headList_interAux (c : Collator)
    (hc : c.prompt_ids.length = c.num_cols + 1) :
    headList c = interAux (promptHeadInds c) (colHeadInds c) := by
  unfold headList
  exact zipflat_eq_interAux (colHeadInds c) (promptHeadInds c)
    (by rw [promptHeadInds_length, colHeadInds_length, hc])

theorem headList_length (c : Collator)
    (hc : c.prompt_ids.length = c.num_cols + 1)
    (h0 : c.prompt_ids.getD 0 [] ≠ []) :
    (headList c).length + 1
      = (c.prompt_ids.map List.length).sum + c.num_cols * c.max_column_len := by
  rw [headList_interAux c hc]
  rw [interAux_length (colHeadInds c) (promptHeadInds c)
    (by rw [promptHeadInds_length, colHeadInds_length, hc])]
  rw [colHeadInds_sum]
  have hne : c.prompt_ids ≠ [] := by
    intro hnil
    rw [hnil] at hc
    simp at hc
  have := promptHeadInds_sum c h0 hne
  omega

theorem headList_count0 (c : Collator)
    (hc : c.prompt_ids.length = c.num_cols + 1)
    (h0 : c.prompt_ids.getD 0 [] ≠ []) :
    (headList c).count 0 + 1 = (c.prompt_ids.map List.length).sum := by
  rw [headList_interAux c hc]
  rw [interAux_count_zero (colHeadInds c) (promptHeadInds c)
    (by rw [promptHeadInds_length, colHeadInds_length, hc])
    (promptHeadInds_zeros c)
    (fun l hl x hx => by
      have := (colHeadInds_mem c l hl x hx).1
      omega)]
  exact promptHeadInds_sum c h0 (by
    intro hnil
    rw [hnil] at hc
    simp at hc)

theorem headList_mem (c : Collator)
    (hc : c.prompt_ids.length = c.num_cols + 1) :
    ∀ x ∈ headList c, x = 0 ∨ (1 ≤ x ∧ x ≤ c.num_cols) := by
  intro x hx
  rw [headList_interAux c hc] at hx
  rcases interAux_mem (colHeadInds c) (promptHeadInds c) x hx with ⟨l, hl, hxl⟩ | ⟨l, hl, hxl⟩
  · exact Or.inl (promptHeadInds_zeros c l hl x hxl)
  · exact Or.inr (colHeadInds_mem c l hl x hxl)

theorem getTemplates_ok_inv (c : Collator) (hi pt : List Nat)
    (h : getTemplates c = Except.ok (hi, pt)) :
    hi = headList c ∧ pt = promptTemplateList c := by
  unfold getTemplates at h
  split at h
  · simp at h
  · simp only [Except.ok.injEq, Prod.mk.injEq] at h
    exact ⟨h.1.symm, h.2.symm⟩

/-! ## Claims C2, C3, C5 -/

/-- C2: for every prompt-chunk list of length N+1 and every max_column_len,
the head_inds and prompt_template returned by get_templates have equal
length, and that length is the sum of the token lengths of the N+1 tokenized
(marked) literal chunks plus N times max_column_len, minus one (the dropped
beginning-of-sequence position).  The hypotheses record that get_templates
returned (at max_column_len = 1 with a column present torch.cat raises) and
that chunk 0 tokenizes to at least one token (an empty tokenized chunk is a
configuration error per the spec). -/
theorem claim2_template_lengths (tok : Tokenizer) (prompt : List String)
    (mcl : Nat) (hi pt : List Nat) (hne : prompt ≠ [])
    (h0 : (mkCollator tok prompt mcl).prompt_ids.getD 0 [] ≠ [])
    (hok : getTemplates (mkCollator tok prompt mcl) = Except.ok (hi, pt)) :
    hi.length = pt.length
    ∧ hi.length
        = ((mkCollator tok prompt mcl).prompt_ids.map List.length).sum
          + (prompt.length - 1) * mcl - 1 := by
  obtain ⟨h1, h2⟩ := getTemplates_ok_inv _ _ _ hok
  have hcons := mk_consistent tok prompt mcl hne
  have hlen := headList_length (mkCollator tok prompt mcl) hcons h0
  constructor
  · rw [h1, h2, promptTemplateList, fillZeros_length]
  · rw [h1]
    have hP : (mkCollator tok prompt mcl).num_cols
        * (mkCollator tok prompt mcl).max_column_len = (prompt.length - 1) * mcl := rfl
    rw [← hP]
    generalize (mkCollator tok prompt mcl).num_cols
      * (mkCollator tok prompt mcl).max_column_len = P at hlen ⊢
    omega

/-- C2 witness: the concrete collator over exPrompt has head_inds and
prompt_template of equal length 6 = (2 + 3) + 1 * 2 - 1. -/
theorem claim2_witness :
    ([0, 1, 1, 0, 0, 0] : List Nat).length = ([10, 0, 0, 4, 11, 2] : List Nat).length
    ∧ ([0, 1, 1, 0, 0, 0] : List Nat).length
        = ((mkCollator exTok exPrompt 2).prompt_ids.map List.length).sum
          + (exPrompt.length - 1) * 2 - 1 :=
  claim2_template_lengths exTok exPrompt 2 [0, 1, 1, 0, 0, 0] [10, 0, 0, 4, 11, 2]
    (by decide) (by decide) rfl

/-- C3: in the templates returned by get_templates, the entries of
prompt_template at the positions where head_inds is 0 are exactly the
literal-prompt tokens (the tokenized chunks concatenated with the first,
beginning-of-sequence, token dropped) in order, and every nonzero head index
lies in 1..N; so a position carries head index 0 exactly when it holds a
literal-prompt token, and no column position ever maps to 0. -/
theorem claim3_head_zero_literal (tok : Tokenizer) (prompt : List String)
    (mcl : Nat) (hi pt : List Nat) (hne : prompt ≠ [])
    (h0 : (mkCollator tok prompt mcl).prompt_ids.getD 0 [] ≠ [])
    (hok : getTemplates (mkCollator tok prompt mcl) = Except.ok (hi, pt)) :
    selectWhereZero hi pt
        = (mkCollator tok prompt mcl).prompt_ids.flatten.drop 1
    ∧ ∀ x ∈ hi, x ≠ 0 →
        1 ≤ x ∧ x ≤ (mkCollator tok prompt mcl).num_cols := by
  obtain ⟨h1, h2⟩ := getTemplates_ok_inv _ _ _ hok
  have hcons := mk_consistent tok prompt mcl hne
  constructor
  · rw [h1, h2, promptTemplateList]
    apply select_fillZeros
    have hcount := headList_count0 (mkCollator tok prompt mcl) hcons h0
    have hflat : ((mkCollator tok prompt mcl).prompt_ids.flatten.drop 1).length
        = ((mkCollator tok prompt mcl).prompt_ids.map List.length).sum - 1 := by
      simp [List.length_drop, List.length_flatten]
    omega
  · intro x hx hxne
    rcases headList_mem (mkCollator tok prompt mcl) hcons x (h1 ▸ hx) with h | h
    · exact absurd h hxne
    · exact h

/-- C3 witness: on the concrete collator, the zero-head positions of
[0,1,1,0,0,0] pick out [10,4,11,2] from the template, the literal tokens
with the leading bos dropped, and every nonzero head value is the column
index 1. -/
theorem claim3_witness :
    selectWhereZero [0, 1, 1, 0, 0, 0] [10, 0, 0, 4, 11, 2]
        = (mkCollator exTok exPrompt 2).prompt_ids.flatten.drop 1
    ∧ ∀ x ∈ ([0, 1, 1, 0, 0, 0] : List Nat), x ≠ 0 →
        1 ≤ x ∧ x ≤ (mkCollator exTok exPrompt 2).num_cols :=
  claim3_head_zero_literal exTok exPrompt 2 [0, 1, 1, 0, 0, 0] [10, 0, 0, 4, 11, 2]
    (by decide) (by decide) rfl

/-- C5 counterexample: the claim says the chunk before each column slot is
suffixed with the column-separator marker, placing the separator immediately
before each column span.  On the concrete collator (prompt chunks a and b,
separator token 4), chunk 0 - the chunk before the only column slot -
tokenizes to [1, 10] and ends with the literal token 10, not the separator
token 4; in the assembled template [10, 0, 0, 4, 11, 2] with head indices
[0, 1, 1, 0, 0, 0], the position immediately before the column span holds
10 while the separator sits immediately after the span. -/
theorem claim5_counterexample :
    getTemplates (mkCollator exTok exPrompt 2)
        = Except.ok ([0, 1, 1, 0, 0, 0], [10, 0, 0, 4, 11, 2])
    ∧ exTok.tokenize exTok.cls_token = [4]
    ∧ ((mkCollator exTok exPrompt 2).prompt_ids.getD 0 []).getLast? = some 10
    ∧ (10 : Nat) ≠ 4 := by
  refine ⟨rfl, rfl, rfl, by decide⟩

/-- C5 amended: in the prompt marked at collator construction, chunk 0 is
prefixed with the beginning-of-sequence marker (and stripped), every chunk
following a column slot - chunks 1 through N - is prefixed with the
column-separator marker (and stripped), and the final chunk additionally
receives the end-of-sequence marker as a suffix; hence in the assembled
sequence the separator token lies immediately after each column span, not
before it. -/
theorem claim5_marker_placement (tok : Tokenizer) (p0 pl : String)
    (mid : List String) :
    markPrompt tok (p0 :: (mid ++ [pl]))
      = pyStrip (tok.bos_token ++ p0)
          :: (mid.map (fun s => pyStrip (tok.cls_token ++ s))
            ++ [pyStrip (tok.cls_token ++ pl) ++ tok.eos_token]) :=
  markPrompt_decomp tok p0 pl mid

/-! ## Batch Layout Engine lemmas -/

theorem rowOf_eq_asmAux : ∀ (n : Nat) (chunks spans : List (List Nat)),
    chunks.length = n + 1 → rowOf chunks n spans = asmAux chunks n spans
  | 0, chunks, spans, _ => by simp [rowOf, asmAux]
  | n + 1, chunks, spans, h => by
    obtain ⟨c0, ct, rfl⟩ := List.exists_cons_of_ne_nil
      (show chunks ≠ [] by intro hc; rw [hc] at h; simp at h)
    have hct : ct.length = n + 1 := by simpa using h
    obtain ⟨q, qt, rfl⟩ := List.exists_cons_of_ne_nil
      (show ct ≠ [] by intro hc; rw [hc] at hct; simp at hct)
    unfold rowOf asmAux
    rw [List.range_succ_eq_map]
    simp only [List.map_cons, List.flatten_cons, List.map_map,
      List.getD_cons_zero, List.drop_succ_cons, List.drop_zero]
    have hmap : ((List.range n).map
        ((fun i => (c0 :: q :: qt).getD i [] ++ spans.getD i []) ∘ Nat.succ))
        = (List.range n).map
          (fun i => (q :: qt).getD i [] ++ (spans.drop 1).getD i []) := by
      apply List.map_congr_left
      intro a _
      simp only [Function.comp_apply]
      rw [show Nat.succ a = a + 1 from rfl, List.getD_cons_succ, getD_succ_drop]
    rw [hmap]
    rw [List.getLastD_cons, getLastD_congr q qt c0 []]
    have ih := rowOf_eq_asmAux n (q :: qt) (spans.drop 1) hct
    unfold rowOf at ih
    rw [List.append_assoc, ih]

theorem asmAux_length : ∀ (n : Nat) (chunks spans : List (List Nat)) (m : Nat),
    chunks.length = n + 1 →
    (∀ i, i < n → (spans.getD i []).length = m) →
    (asmAux chunks n spans).length = (chunks.map List.length).sum + n * m
  | 0, chunks, spans, m, h, _ => by
    obtain ⟨p, rfl⟩ := List.length_eq_one.mp h
    simp [asmAux]
  | n + 1, chunks, spans, m, h, hs => by
    obtain ⟨c0, ct, rfl⟩ := List.exists_cons_of_ne_nil
      (show chunks ≠ [] by intro hc; rw [hc] at h; simp at h)
    have hct : ct.length = n + 1 := by simpa using h
    simp only [asmAux, List.getD_cons_zero, List.drop_succ_cons, List.drop_zero,
      List.length_append, List.map_cons, List.sum_cons]
    rw [asmAux_length n ct (spans.drop 1) m hct (fun i hi => by
      rw [← getD_succ_drop]
      exact hs (i + 1) (by omega))]
    rw [hs 0 (by omega)]
    ring

theorem startOf_succ (chunks : List (List Nat)) (m k : Nat) :
    startOf chunks m (k + 1)
      = (chunks.getD 0 []).length + (m + startOf (chunks.drop 1) m k) := by
  unfold startOf
  rw [List.range_succ_eq_map]
  simp only [List.map_cons, List.sum_cons, List.map_map]
  have hmap : ((List.range (k + 1)).map
      ((fun i => (chunks.getD i []).length) ∘ Nat.succ))
      = (List.range (k + 1)).map (fun i => ((chunks.drop 1).getD i []).length) := by
    apply List.map_congr_left
    intro a _
    simp only [Function.comp_apply]
    rw [show Nat.succ a = a + 1 from rfl, getD_succ_drop]
  rw [hmap]
  ring

theorem asmAux_slice : ∀ (k n : Nat) (chunks spans : List (List Nat)) (m : Nat),
    chunks.length = n + 1 →
    (∀ i, i < n → (spans.getD i []).length = m) →
    k < n →
    ((asmAux chunks n spans).drop (startOf chunks m k)).take m = spans.getD k []
  | 0, n, chunks, spans, m, h, hs, hk => by
    obtain ⟨n2, rfl⟩ : ∃ n2, n = n2 + 1 := ⟨n - 1, by omega⟩
    obtain ⟨c0, ct, rfl⟩ := List.exists_cons_of_ne_nil
      (show chunks ≠ [] by intro hc; rw [hc] at h; simp at h)
    have hst : startOf (c0 :: ct) m 0 = c0.length := by
      unfold startOf
      simp [List.range_succ]
    rw [hst]
    show ((c0 ++ spans.getD 0 [] ++ asmAux ct n2 (spans.drop 1)).drop
      c0.length).take m = _
    rw [List.append_assoc, List.drop_left]
    rw [← hs 0 (by omega), List.take_left]
  | k + 1, n, chunks, spans, m, h, hs, hk => by
    obtain ⟨n2, rfl⟩ : ∃ n2, n = n2 + 1 := ⟨n - 1, by omega⟩
    obtain ⟨c0, ct, rfl⟩ := List.exists_cons_of_ne_nil
      (show chunks ≠ [] by intro hc; rw [hc] at h; simp at h)
    have hct : ct.length = n2 + 1 := by simpa using h
    rw [startOf_succ]
    simp only [List.getD_cons_zero, List.drop_succ_cons, List.drop_zero]
    show ((c0 ++ spans.getD 0 [] ++ asmAux ct n2 (spans.drop 1)).drop
      (c0.length + (m + startOf ct m k))).take m = _
    rw [List.append_assoc, List.drop_append, ← hs 0 (by omega), List.drop_append]
    rw [hs 0 (by omega)]
    rw [getD_succ_drop]
    exact asmAux_slice k n2 ct (spans.drop 1) m hct
      (fun i hi => by
        rw [← getD_succ_drop]
        exact hs (i + 1) (by omega))
      (by omega)

theorem tokFixed_length (tok : Tokenizer) (mcl : Nat) (s : String) :
    (tokFixed tok mcl s).length = mcl := by
  unfold tokFixed
  simp only [List.length_append, List.length_replicate, List.length_take]
  omega

/-! ## Record, dataframe and option-sequencing lemmas -/

theorem flatMap_length_uniform {α β : Type} (f : α → List β) (K : Nat)
    (hf : ∀ r, (f r).length = K) :
    ∀ (l : List α), (l.flatMap f).length = l.length * K
  | [] => by simp
  | a :: t => by
    simp only [List.flatMap_cons, List.length_append, hf a,
      flatMap_length_uniform f K hf t, List.length_cons]
    ring

theorem flatMap_getD_uniform {α β : Type} (f : α → List β) (K : Nat)
    (hf : ∀ r, (f r).length = K) (dr : α) (d : β) :
    ∀ (l : List α) (b k : Nat), b < l.length → k < K →
      (l.flatMap f).getD (b * K + k) d = (f (l.getD b dr)).getD k d
  | [], b, k, hb, _ => by simp at hb
  | a :: t, 0, k, _, hk => by
    simp only [List.flatMap_cons, Nat.zero_mul, Nat.zero_add, List.getD_cons_zero]
    exact List.getD_append _ _ d k (by rw [hf a]; exact hk)
  | a :: t, b + 1, k, hb, hk => by
    simp only [List.flatMap_cons, List.getD_cons_succ]
    rw [List.getD_append_right _ _ d _ (by rw [hf a]; nlinarith)]
    rw [hf a]
    have harith : (b + 1) * K + k - K = b * K + k := by ring_nf; omega
    rw [harith]
    exact flatMap_getD_uniform f K hf dr d t b k (by simpa using hb) hk

theorem allSome_eq_map_some : ∀ (l : List (Option String)) (cells : List String),
    allSome l = some cells → l = cells.map some
  | [], cells, h => by
    simp only [allSome, Option.some.injEq] at h
    simp [← h]
  | none :: t, cells, h => by simp [allSome] at h
  | some a :: t, cells, h => by
    simp only [allSome] at h
    rcases ht : allSome t with _ | l2 <;> rw [ht] at h
    · simp at h
    · simp only [Option.some.injEq] at h
      rw [← h]
      simp [allSome_eq_map_some t l2 ht]

theorem allSome_none_of_mem : ∀ (l : List (Option String)),
    (none : Option String) ∈ l → allSome l = none
  | [], h => by simp at h
  | none :: t, _ => rfl
  | some a :: t, h => by
    have h2 : (none : Option String) ∈ t := by
      rcases List.mem_cons.mp h with heq | h2
      · exact absurd heq (by simp)
      · exact h2
    simp only [allSome, allSome_none_of_mem t h2]

theorem dfGo_mem_acc (k : String) : ∀ (recs : List Record) (acc : List String),
    k ∈ acc → k ∈ dfGo acc recs
  | [], _, h => h
  | _ :: t, _, h => dfGo_mem_acc k t _ (List.mem_append.mpr (Or.inl h))

theorem dfGo_mem_key (k : String) : ∀ (recs : List Record) (acc : List String)
    (r : Record), r ∈ recs → k ∈ r.map Prod.fst → k ∈ dfGo acc recs
  | [], _, r, hr, _ => by simp at hr
  | r0 :: t, acc, r, hr, hk => by
    rcases List.mem_cons.mp hr with rfl | hr2
    · by_cases hin : k ∈ acc
      · exact dfGo_mem_acc k t _ (List.mem_append.mpr (Or.inl hin))
      · refine dfGo_mem_acc k t _ (List.mem_append.mpr (Or.inr ?_))
        rw [List.mem_filter]
        exact ⟨hk, by simpa using hin⟩
    · exact dfGo_mem_key k t _ r hr2 hk

theorem dfColumns_mem (recs : List Record) (r : Record) (k : String)
    (hr : r ∈ recs) (hk : k ∈ r.map Prod.fst) : k ∈ dfColumns recs :=
  dfGo_mem_key k recs [] r hr hk

theorem dfGo_stable : ∀ (recs : List Record) (acc : List String),
    (∀ r ∈ recs, ∀ k ∈ r.map Prod.fst, k ∈ acc) → dfGo acc recs = acc
  | [], _, _ => rfl
  | r :: t, acc, h => by
    have hfil : ((r.map Prod.fst).filter (fun k => decide (k ∉ acc))) = [] := by
      rw [List.filter_eq_nil_iff]
      intro a ha
      simpa using h r (by simp) a ha
    unfold dfGo
    rw [hfil, List.append_nil]
    exact dfGo_stable t acc (fun r2 hr2 => h r2 (by simp [hr2]))

theorem dfColumns_all_length (recs : List Record) (hne : recs ≠ [])
    (hkeys : ∀ r ∈ recs, r.map Prod.fst = ["length"]) :
    dfColumns recs = ["length"] := by
  obtain ⟨r0, rest, rfl⟩ := List.exists_cons_of_ne_nil hne
  show dfGo ([] ++ ((r0.map Prod.fst).filter (fun k => decide (k ∉ ([] : List String))))) rest
      = ["length"]
  rw [hkeys r0 (by simp)]
  have hfil : ((["length"] : List String).filter
      (fun k => decide (k ∉ ([] : List String)))) = ["length"] := by decide
  rw [List.nil_append, hfil]
  exact dfGo_stable rest ["length"] (fun r hr k hk => by
    rw [hkeys r (by simp [hr])] at hk
    exact hk)

theorem rlookup_eq_none (k : String) : ∀ (r : Record),
    k ∉ r.map Prod.fst → rlookup k r = none
  | [], _ => rfl
  | (k2, v) :: t, h => by
    simp only [List.map_cons, List.mem_cons] at h
    push_neg at h
    unfold rlookup
    rw [if_neg (fun he => h.1 he.symm)]
    exact rlookup_eq_none k t h.2

/-! ## Inversion of the labeled branch of collatorCall -/

theorem collatorCall_modeA_inv (c : Collator) (recs : List Record)
    (out : CallOutput) (lab : List (List Nat))
    (hok : collatorCall c recs = Except.ok out) (hlab : out.labels = some lab) :
    ∃ cells : List String,
      allSome (recs.flatMap (fun r =>
          (((dfColumns recs).filter (fun k => decide (k ≠ "length"))).map
            (fun k => rlookup k r)))) = some cells
      ∧ cells.length * c.max_column_len
          = recs.length * c.num_cols * c.max_column_len
      ∧ lab = (List.range recs.length).map
          (fun b => rowOf c.prompt_ids c.num_cols
            (((cells.map (tokFixed c.tok c.max_column_len)).drop
              (b * c.num_cols)).take c.num_cols))
      ∧ out.input_ids = lab
      ∧ 1 < (dfColumns recs).length := by
  unfold collatorCall at hok
  dsimp only at hok
  split at hok
  case isTrue hmem =>
    split at hok
    case isTrue hinc =>
      split at hok
      case h_1 => simp at hok
      case h_2 cells heq =>
        split at hok
        case isTrue hshape =>
          refine ⟨cells, heq, hshape, ?_⟩
          simp only [Except.ok.injEq] at hok
          rw [← hok] at hlab
          simp only [Option.some.injEq] at hlab
          rw [← hok]
          exact ⟨hlab.symm, hlab, by simpa using hinc⟩
        case isFalse => simp at hok
    case isFalse =>
      split at hok
      · simp only [Except.ok.injEq] at hok
        rw [← hok] at hlab
        simp at hlab
      · simp at hok
  case isFalse => simp at hok

theorem getD_mem {α : Type} : ∀ (l : List α) (i : Nat) (d : α),
    i < l.length → l.getD i d ∈ l
  | [], i, d, h => by simp at h
  | a :: t, 0, d, _ => by simp
  | a :: t, i + 1, d, h => by
    simp only [List.getD_cons_succ]
    exact List.mem_cons_of_mem a (getD_mem t i d (by simpa using h))

theorem getD_oob {α : Type} : ∀ (l : List α) (i : Nat) (d : α),
    l.length ≤ i → l.getD i d = d
  | [], i, d, _ => by simp
  | a :: t, 0, d, h => by simp at h
  | a :: t, i + 1, d, h => by
    simpa using getD_oob t i d (by simpa using h)

theorem getD_map_range {β : Type} (f : Nat → β) (B b : Nat) (d : β)
    (hb : b < B) : ((List.range B).map f).getD b d = f b := by
  rw [getD_map f (List.range B) b d 0 (by simpa using hb), getD_range B b hb]

theorem prompt_ne_of_chunk0 (tok : Tokenizer) (prompt : List String) (mcl : Nat)
    (h0 : (mkCollator tok prompt mcl).prompt_ids.getD 0 [] ≠ []) :
    prompt ≠ [] := by
  intro hnil
  rw [hnil] at h0
  exact h0 rfl

theorem sum_len_pos (c : Collator) (h0 : c.prompt_ids.getD 0 [] ≠ []) :
    1 ≤ (c.prompt_ids.map List.length).sum := by
  rcases hpi : c.prompt_ids with _ | ⟨p0, rest⟩
  · rw [hpi] at h0
    simp at h0
  · rw [hpi] at h0
    have hp : 0 < p0.length := List.length_pos.mpr (by simpa using h0)
    simp only [List.map_cons, List.sum_cons]
    omega

theorem spans_length (tok2 : Tokenizer) (mcl n B b : Nat) (cells : List String)
    (hsh : cells.length * mcl = B * n * mcl) (hb : b < B) :
    ∀ i, i < n →
      ((((cells.map (tokFixed tok2 mcl)).drop (b * n)).take n).getD i []).length
        = mcl := by
  intro i hi
  by_cases hmcl : mcl = 0
  · subst hmcl
    rcases Nat.lt_or_ge i ((((cells.map (tokFixed tok2 0)).drop (b * n)).take n).length)
      with hlt | hge
    · have hmem := getD_mem _ i ([] : List Nat) hlt
      have hmem2 : (((cells.map (tokFixed tok2 0)).drop (b * n)).take n).getD i []
          ∈ cells.map (tokFixed tok2 0) :=
        List.mem_of_mem_drop (List.mem_of_mem_take hmem)
      obtain ⟨s, _, hs⟩ := List.mem_map.mp hmem2
      rw [← hs, tokFixed_length]
    · rw [getD_oob _ i [] hge]
      rfl
  · have hcl : cells.length = B * n :=
      Nat.eq_of_mul_eq_mul_right (Nat.pos_of_ne_zero hmcl) hsh
    have hbn : b * n + i < B * n := by
      have h2 : (b + 1) * n ≤ B * n := Nat.mul_le_mul_right n (by omega)
      have h3 : (b + 1) * n = b * n + n := by ring
      omega
    rw [getD_take _ _ _ _ hi, getD_drop]
    rw [getD_map (tokFixed tok2 mcl) cells _ _ "" (by
      rw [hcl]
      exact hbn)]
    exact tokFixed_length tok2 mcl _

/-! ## Claims C1 and C4 -/

/-- C1: for every labeled (Mode A) batch accepted by __call__, the assembled
sequence aligns with the template: the row width of input_ids minus one
equals the length of the head_inds sequence of get_templates of the same
collator, for every batch size and every prompt-chunk list the collator was
built from.  The hypotheses record that the call and get_templates returned
and that chunk 0 tokenizes nonempty (an empty tokenized chunk is a
configuration error per the spec). -/
theorem claim1_modeA_alignment (tok : Tokenizer) (prompt : List String)
    (mcl : Nat) (recs : List Record) (out : CallOutput) (lab : List (List Nat))
    (hi pt : List Nat)
    (h0 : (mkCollator tok prompt mcl).prompt_ids.getD 0 [] ≠ [])
    (hok : collatorCall (mkCollator tok prompt mcl) recs = Except.ok out)
    (hlab : out.labels = some lab)
    (ht : getTemplates (mkCollator tok prompt mcl) = Except.ok (hi, pt)) :
    ∀ row ∈ out.input_ids, row.length - 1 = hi.length := by
  have hne := prompt_ne_of_chunk0 tok prompt mcl h0
  have hcons := mk_consistent tok prompt mcl hne
  obtain ⟨cells, hcells, hshape, hlabeq, hinp, hgt1⟩ :=
    collatorCall_modeA_inv _ _ _ _ hok hlab
  obtain ⟨h1, h2⟩ := getTemplates_ok_inv _ _ _ ht
  intro row hrow
  rw [hinp, hlabeq] at hrow
  obtain ⟨b, hb, hroweq⟩ := List.mem_map.mp hrow
  have hblt : b < recs.length := List.mem_range.mp hb
  have hspan := spans_length tok (mkCollator tok prompt mcl).max_column_len
    (mkCollator tok prompt mcl).num_cols recs.length b cells hshape hblt
  have hrowlen : row.length
      = ((mkCollator tok prompt mcl).prompt_ids.map List.length).sum
        + (mkCollator tok prompt mcl).num_cols
          * (mkCollator tok prompt mcl).max_column_len := by
    rw [← hroweq, rowOf_eq_asmAux _ _ _ hcons]
    exact asmAux_length _ _ _ _ hcons hspan
  have hhead := headList_length (mkCollator tok prompt mcl) hcons h0
  have hpos := sum_len_pos (mkCollator tok prompt mcl) h0
  rw [h1]
  generalize (mkCollator tok prompt mcl).num_cols
    * (mkCollator tok prompt mcl).max_column_len = P at hrowlen hhead
  omega

/-- C1 witness: on the concrete labeled batch, the single assembled row has
width 7 and the head index sequence has length 6. -/
theorem claim1_witness :
    ([1, 10, 21, 0, 4, 11, 2] : List Nat).length - 1
      = ([0, 1, 1, 0, 0, 0] : List Nat).length :=
  claim1_modeA_alignment exTok exPrompt 2 exRecsA
    (CallOutput.mk [[1, 10, 21, 0, 4, 11, 2]] [[1, 1, 1, 1, 1, 1, 1]]
      (some [[1, 10, 21, 0, 4, 11, 2]]))
    [[1, 10, 21, 0, 4, 11, 2]] [0, 1, 1, 0, 0, 0] [10, 0, 0, 4, 11, 2]
    (by decide) rfl rfl rfl [1, 10, 21, 0, 4, 11, 2] (by decide)

/-- C4: round trip of the Batch Layout Engine.  For a labeled batch accepted
by __call__, slicing a labels row at the fixed boundary of column k (the
token lengths of chunks 0..k plus k fixed-width spans) recovers exactly the
fixed-width token span of the original column value: its tokenization padded
on the right to max_column_len, losslessly whenever the value tokenizes to
at most max_column_len tokens. -/
theorem claim4_roundtrip (tok : Tokenizer) (prompt : List String) (mcl : Nat)
    (recs : List Record) (out : CallOutput) (lab : List (List Nat))
    (b k : Nat) (v : String)
    (hok : collatorCall (mkCollator tok prompt mcl) recs = Except.ok out)
    (hlab : out.labels = some lab)
    (hb : b < recs.length)
    (hk : k < (mkCollator tok prompt mcl).num_cols)
    (hv : rlookup (((dfColumns recs).filter
        (fun s => decide (s ≠ "length"))).getD k "") (recs.getD b [])
      = some v)
    (htr : (tok.tokenize v).length ≤ mcl) :
    ((lab.getD b []).drop (startOf (mkCollator tok prompt mcl).prompt_ids mcl k)).take mcl
      = tok.tokenize v
        ++ List.replicate (mcl - (tok.tokenize v).length) tok.pad_token_id := by
  have hne : prompt ≠ [] := by
    intro hnil
    rw [hnil] at hk
    simp [mkCollator] at hk
  have hcons := mk_consistent tok prompt mcl hne
  obtain ⟨cells, hcells, hshape, hlabeq, hinp, hgt1⟩ :=
    collatorCall_modeA_inv _ _ _ _ hok hlab
  have hrow : lab.getD b []
      = rowOf (mkCollator tok prompt mcl).prompt_ids
          (mkCollator tok prompt mcl).num_cols
          (((cells.map (tokFixed tok mcl)).drop
            (b * (mkCollator tok prompt mcl).num_cols)).take
            (mkCollator tok prompt mcl).num_cols) := by
    rw [hlabeq]
    exact getD_map_range _ _ b [] hb
  rcases Nat.eq_zero_or_pos mcl with hmcl | hmcl
  · subst hmcl
    have hv0 : tok.tokenize v = [] := List.length_eq_zero.mp (by omega)
    simp [hv0]
  · -- the flattened cell list and its uniform row length
    have hKlen : (recs.flatMap (fun r =>
        (((dfColumns recs).filter (fun s => decide (s ≠ "length"))).map
          (fun s => rlookup s r)))).length
        = recs.length
          * ((dfColumns recs).filter (fun s => decide (s ≠ "length"))).length :=
      flatMap_length_uniform _ _ (fun r => by simp) recs
    have hLmap := allSome_eq_map_some _ _ hcells
    have hclen : cells.length
        = recs.length
          * ((dfColumns recs).filter (fun s => decide (s ≠ "length"))).length := by
      rw [← hKlen, hLmap, List.length_map]
    have hcl : cells.length = recs.length * (mkCollator tok prompt mcl).num_cols :=
      Nat.eq_of_mul_eq_mul_right hmcl hshape
    have hKn : ((dfColumns recs).filter (fun s => decide (s ≠ "length"))).length
        = (mkCollator tok prompt mcl).num_cols := by
      have hBpos : 0 < recs.length := by omega
      have := hclen.symm.trans hcl
      exact Nat.eq_of_mul_eq_mul_left hBpos this
    -- slice the assembled row down to the span
    have hspan := spans_length tok mcl (mkCollator tok prompt mcl).num_cols
      recs.length b cells hshape hb
    rw [hrow, rowOf_eq_asmAux _ _ _ hcons]
    rw [asmAux_slice k _ _ _ _ hcons hspan hk]
    -- identify the span with the tokenized cell value
    have hbn : b * (mkCollator tok prompt mcl).num_cols + k < cells.length := by
      rw [hcl]
      have h2 : (b + 1) * (mkCollator tok prompt mcl).num_cols
          ≤ recs.length * (mkCollator tok prompt mcl).num_cols :=
        Nat.mul_le_mul_right _ (by omega)
      have h3 : (b + 1) * (mkCollator tok prompt mcl).num_cols
          = b * (mkCollator tok prompt mcl).num_cols
            + (mkCollator tok prompt mcl).num_cols := by ring
      omega
    rw [getD_take _ _ _ _ hk, getD_drop]
    rw [getD_map (tokFixed tok mcl) cells _ _ "" hbn]
    -- the cell value at flat index b * K + k is v
    have hKk : k < ((dfColumns recs).filter (fun s => decide (s ≠ "length"))).length := by
      rw [hKn]
      exact hk
    have hflat := flatMap_getD_uniform
      (fun r => (((dfColumns recs).filter (fun s => decide (s ≠ "length"))).map
        (fun s => rlookup s r)))
      ((dfColumns recs).filter (fun s => decide (s ≠ "length"))).length
      (fun r => by simp) ([] : Record) (none : Option String) recs b k hb hKk
    rw [hKn] at hflat
    rw [hLmap] at hflat
    rw [getD_map some cells _ (none : Option String) "" hbn] at hflat
    rw [getD_map (fun s => rlookup s (recs.getD b []))
      ((dfColumns recs).filter (fun s => decide (s ≠ "length"))) k
      (none : Option String) "" hKk] at hflat
    rw [hv] at hflat
    have hcell : cells.getD
        (b * (mkCollator tok prompt mcl).num_cols + k) "" = v := by
      exact Option.some.injEq _ _ |>.mp hflat
    rw [hcell]
    show tokFixed tok mcl v = _
    rw [tokFixed, List.take_of_length_le htr]

/-- C4 witness: slicing the single assembled labels row at the column 0
boundary recovers the tokenization of the original value v1 padded to width
2. -/
theorem claim4_witness :
    ((([[1, 10, 21, 0, 4, 11, 2]] : List (List Nat)).getD 0 []).drop
        (startOf (mkCollator exTok exPrompt 2).prompt_ids 2 0)).take 2
      = exTok.tokenize "v1"
        ++ List.replicate (2 - (exTok.tokenize "v1").length) exTok.pad_token_id :=
  claim4_roundtrip exTok exPrompt 2 exRecsA
    (CallOutput.mk [[1, 10, 21, 0, 4, 11, 2]] [[1, 1, 1, 1, 1, 1, 1]]
      (some [[1, 10, 21, 0, 4, 11, 2]]))
    [[1, 10, 21, 0, 4, 11, 2]] 0 0 "v1" rfl rfl (by decide) (by decide)
    (by decide) (by decide)

/-! ## Claims C7, C8, C10 -/

/-- C7: a batch mixing a labeled record (one carrying a field other than
length) with an unlabeled generation-seed record (one whose only field is
length) makes __call__ fail with the ValueError the tokenizer raises on the
NaN cell: the column-count test routes the batch into the labeled mode,
where the seed record misses every real column. -/
theorem claim7_mixed_batch_error (c : Collator) (recs : List Record)
    (r1 r2 : Record) (k1 : String)
    (hr1 : r1 ∈ recs) (hk1 : k1 ∈ r1.map Prod.fst) (hk1ne : k1 ≠ "length")
    (hr2 : r2 ∈ recs) (hr2keys : r2.map Prod.fst = ["length"]) :
    collatorCall c recs = Except.error PyError.valueError := by
  have hlen : "length" ∈ dfColumns recs :=
    dfColumns_mem recs r2 "length" hr2 (by rw [hr2keys]; simp)
  have hk1mem : k1 ∈ dfColumns recs := dfColumns_mem recs r1 k1 hr1 hk1
  have hgt : 1 < (dfColumns recs).length :=
    two_mem_one_lt _ k1 "length" hk1mem hlen hk1ne
  have hnone : (none : Option String) ∈ recs.flatMap (fun r =>
      (((dfColumns recs).filter (fun k => decide (k ≠ "length"))).map
        (fun k => rlookup k r))) := by
    rw [List.mem_flatMap]
    refine ⟨r2, hr2, ?_⟩
    rw [List.mem_map]
    refine ⟨k1, ?_, ?_⟩
    · rw [List.mem_filter]
      exact ⟨hk1mem, by simpa using hk1ne⟩
    · rw [rlookup_eq_none k1 r2 (by rw [hr2keys]; simpa using hk1ne)]
  unfold collatorCall
  dsimp only
  rw [if_pos hlen, if_pos (by simpa using hgt), allSome_none_of_mem _ hnone]

/-- C7 witness: mixing a labeled record with a length-only seed record
yields the ValueError. -/
theorem claim7_witness :
    collatorCall exC [[("length", "0"), ("c1", "v1")], [("length", "1")]]
      = Except.error PyError.valueError :=
  claim7_mixed_batch_error exC
    [[("length", "0"), ("c1", "v1")], [("length", "1")]]
    [("length", "0"), ("c1", "v1")] [("length", "1")] "c1"
    (by decide) (by decide) (by decide) (by decide) (by decide)

/-- C8: on an unlabeled batch - every record carrying only the length field -
__call__ returns input_ids equal to the two-token row of the
beginning-of-sequence token id followed by the first real token of chunk 0,
tiled over the batch, an all-ones attention mask of the same shape, and no
labels entry.  The last hypothesis records that chunk 0 holds at least two
tokens (the Python indexing chunk0[1] raises otherwise). -/
theorem claim8_modeB_output (c : Collator) (recs : List Record)
    (hne : recs ≠ []) (hkeys : ∀ r ∈ recs, r.map Prod.fst = ["length"])
    (h2 : 2 ≤ (c.prompt_ids.getD 0 []).length) :
    collatorCall c recs = Except.ok
      { input_ids := List.replicate recs.length
          [c.tok.bos_token_id, (c.prompt_ids.getD 0 []).getD 1 0]
        attention_mask := List.replicate recs.length [1, 1]
        labels := none } := by
  have hcols := dfColumns_all_length recs hne hkeys
  unfold collatorCall
  dsimp only
  rw [hcols]
  rw [if_pos (show ("length" : String) ∈ ["length"] by simp)]
  rw [if_neg (by decide)]
  rw [if_pos h2]

/-- C8 witness: the concrete two-seed batch produces the tiled
[bos, first-real-token] rows and no labels. -/
theorem claim8_witness :
    collatorCall exC exRecsB = Except.ok
      { input_ids := List.replicate exRecsB.length
          [exC.tok.bos_token_id, (exC.prompt_ids.getD 0 []).getD 1 0]
        attention_mask := List.replicate exRecsB.length [1, 1]
        labels := none } :=
  claim8_modeB_output exC exRecsB (by decide) (by decide) (by decide)

/-! ## Claim C10 -/

theorem dfGo_keys_congr : ∀ (recs recs2 : List Record) (acc : List String),
    List.Forall₂ (fun r r2 => r.map Prod.fst = r2.map Prod.fst) recs recs2 →
    dfGo acc recs = dfGo acc recs2
  | _, _, acc, List.Forall₂.nil => rfl
  | _, _, acc, List.Forall₂.cons h t => by
    unfold dfGo
    rw [h]
    exact dfGo_keys_congr _ _ _ t

theorem flatMap_lookup_congr (cols2 : List String)
    (hcols2 : ∀ k ∈ cols2, k ≠ "length") (recs recs2 : List Record)
    (hf : List.Forall₂ sameExceptLength recs recs2) :
    recs.flatMap (fun r => cols2.map (fun k => rlookup k r))
      = recs2.flatMap (fun r => cols2.map (fun k => rlookup k r)) := by
  induction hf with
  | nil => rfl
  | cons h t ih =>
    obtain ⟨hks, hvals⟩ := h
    simp only [List.flatMap_cons]
    rw [List.map_congr_left (fun k hk => hvals k (hcols2 k hk)), ih]

/-- C10: every batch handed to __call__ must carry the length column - the
collator drops it before any tokenization, and the call fails with a
KeyError on a batch in which no record carries it - while the values stored
under length never affect the produced input_ids, attention_mask or labels:
two batches with identical keys and identical values outside the length
field collate to identical results. -/
theorem claim10_length_column (c : Collator) (recs recs2 : List Record) :
    ("length" ∉ dfColumns recs →
      collatorCall c recs = Except.error PyError.keyError)
    ∧ (List.Forall₂ sameExceptLength recs recs2 →
      collatorCall c recs = collatorCall c recs2) := by
  constructor
  · intro hmiss
    unfold collatorCall
    dsimp only
    rw [if_neg hmiss]
  · intro hsame
    have hkeys : List.Forall₂
        (fun r r2 => r.map Prod.fst = r2.map Prod.fst) recs recs2 :=
      hsame.imp (fun a b h => h.1)
    have hcols : dfColumns recs = dfColumns recs2 :=
      dfGo_keys_congr recs recs2 [] hkeys
    have hlen : recs.length = recs2.length := hsame.length_eq
    have hflat : recs.flatMap (fun r =>
        (((dfColumns recs).filter (fun k => decide (k ≠ "length"))).map
          (fun k => rlookup k r)))
        = recs2.flatMap (fun r =>
        (((dfColumns recs).filter (fun k => decide (k ≠ "length"))).map
          (fun k => rlookup k r))) :=
      flatMap_lookup_congr _ (fun k hk => by
        have hm := List.mem_filter.mp hk
        simpa using hm.2) recs recs2 hsame
    unfold collatorCall
    dsimp only
    rw [← hcols, ← hlen, ← hflat]

/-- C10 witness: a batch with no length field raises the KeyError, and two
seed batches differing only in their length values collate identically. -/
theorem claim10_witness :
    collatorCall exC [[("a", "x")]] = Except.error PyError.keyError
    ∧ collatorCall exC exRecsB
        = collatorCall exC [[("length", "7")], [("length", "9")]] :=
  ⟨(claim10_length_column exC [[("a", "x")]] []).1 (by decide),
   (claim10_length_column exC exRecsB
      [[("length", "7")], [("length", "9")]]).2 (by
    refine List.Forall₂.cons ⟨rfl, ?_⟩ (List.Forall₂.cons ⟨rfl, ?_⟩ List.Forall₂.nil) <;>
    · intro k hk
      simp [rlookup, Ne.symm hk])⟩

/-! ## Claim C9: the sampling loop only extends the prediction table -/

theorem tableLe_refl (s : List (List String)) : tableLe s s :=
  ⟨rfl, fun _ => List.prefix_refl _⟩

theorem tableLe_trans {s1 s2 s3 : List (List String)}
    (h12 : tableLe s1 s2) (h23 : tableLe s2 s3) : tableLe s1 s3 := by
  obtain ⟨hl12, hp12⟩ := h12
  obtain ⟨hl23, hp23⟩ := h23
  exact ⟨hl12.trans hl23, fun i => (hp12 i).trans (hp23 i)⟩

theorem colStep_le (preds : List (List String)) (i : Nat) (new : List String) :
    tableLe preds (colStep preds i new) := by
  constructor
  · simp [colStep]
  · intro j
    rcases Nat.lt_or_ge i preds.length with hlt | hge
    · by_cases hij : i = j
      · subst hij
        rw [colStep, getD_set_self preds i _ [] hlt]
        exact List.prefix_append _ _
      · rw [colStep, getD_set_ne preds i j _ [] hij]
    · rw [colStep, List.set_eq_of_length_le hge]

theorem colFold_inv (gen : Nat → List String) :
    ∀ (l : List Nat) (st : List (List String) × List (List (List String))),
      (∀ s ∈ st.2, tableLe s st.1) → List.Pairwise tableLe st.2 →
      (∀ s ∈ (l.foldl (fun st2 i =>
          let p := colStep st2.1 i (gen i)
          (p, st2.2 ++ [p])) st).2,
        tableLe s (l.foldl (fun st2 i =>
          let p := colStep st2.1 i (gen i)
          (p, st2.2 ++ [p])) st).1)
      ∧ List.Pairwise tableLe (l.foldl (fun st2 i =>
          let p := colStep st2.1 i (gen i)
          (p, st2.2 ++ [p])) st).2
  | [], _, ha, hp => ⟨ha, hp⟩
  | i0 :: t, st, ha, hp => by
    simp only [List.foldl_cons]
    apply colFold_inv gen t
    · intro s hs
      rcases List.mem_append.mp hs with hs2 | hs2
      · exact tableLe_trans (ha s hs2) (colStep_le st.1 i0 (gen i0))
      · rw [List.mem_singleton.mp hs2]
        exact tableLe_refl _
    · rw [List.pairwise_append]
      refine ⟨hp, by simp, ?_⟩
      intro a ha2 b hb
      rw [List.mem_singleton.mp hb]
      exact tableLe_trans (ha a ha2) (colStep_le st.1 i0 (gen i0))

theorem batchStep_inv (cols : Nat) (gen : Nat → List String)
    (st : List (List String) × List (List (List String)))
    (ha : ∀ s ∈ st.2, tableLe s st.1) (hp : List.Pairwise tableLe st.2) :
    (∀ s ∈ (batchStep cols gen st).2, tableLe s (batchStep cols gen st).1)
    ∧ List.Pairwise tableLe (batchStep cols gen st).2 :=
  colFold_inv gen (List.range cols) st ha hp

theorem genLoop_inv (cols : Nat) (gen : Nat → Nat → List String) :
    ∀ (l : List Nat) (st : List (List String) × List (List (List String))),
      (∀ s ∈ st.2, tableLe s st.1) → List.Pairwise tableLe st.2 →
      (∀ s ∈ (l.foldl (fun st2 b => batchStep cols (gen b) st2) st).2,
        tableLe s (l.foldl (fun st2 b => batchStep cols (gen b) st2) st).1)
      ∧ List.Pairwise tableLe
          (l.foldl (fun st2 b => batchStep cols (gen b) st2) st).2
  | [], _, ha, hp => ⟨ha, hp⟩
  | b :: t, st, ha, hp => by
    simp only [List.foldl_cons]
    obtain ⟨ha2, hp2⟩ := batchStep_inv cols (gen b) st ha hp
    exact genLoop_inv cols gen t _ ha2 hp2

/-- C9: across the iterations of the generation sampling loop, the
accumulated prediction table only grows: every flushed snapshot, and the
final table, are pairwise ordered by columnwise prefix (tableLe), so each
flush overwrites the output with a table extending every earlier flush, and
the persisted table after any prefix of iterations is a consistent
truncation of the final one. -/
theorem claim9_flush_monotone (nb cols : Nat) (gen : Nat → Nat → List String) :
    List.Pairwise tableLe
      ((runGenLoop nb cols gen).2 ++ [(runGenLoop nb cols gen).1]) := by
  obtain ⟨ha, hp⟩ := genLoop_inv cols gen (List.range nb)
    (List.replicate cols [], []) (by simp) (by simp)
  rw [List.pairwise_append]
  refine ⟨hp, by simp, ?_⟩
  intro a ha2 b hb
  rw [List.mem_singleton.mp hb]
  exact ha a ha2

/-! ## Value Matcher lemmas: exact cosine comparisons -/

theorem dot_comm : ∀ (x y : List Nat), dot x y = dot y x
  | [], [] => rfl
  | [], _ :: _ => rfl
  | _ :: _, [] => rfl
  | a :: as2, b :: bs => by
    simp only [dot]
    rw [dot_comm as2 bs, Nat.mul_comm]

theorem dot_zero_left : ∀ (g u : List Nat), dot g g = 0 → dot g u = 0
  | [], _, _ => rfl
  | _ :: _, [], _ => rfl
  | a :: gs, b :: us, h => by
    simp only [dot] at h ⊢
    have ha : a * a = 0 := by omega
    have hgs : dot gs gs = 0 := by omega
    have ha0 : a = 0 := by
      rcases Nat.mul_eq_zero.mp ha with h0 | h0 <;> exact h0
    rw [ha0, dot_zero_left gs us hgs]
    simp

theorem dot_cauchy : ∀ (x y : List Nat), dot x y ^ 2 ≤ dot x x * dot y y
  | [], y => by
    show dot [] y ^ 2 ≤ dot [] [] * dot y y
    simp [dot]
  | _ :: _, [] => by simp [dot]
  | a :: xs, b :: ys => by
    have ih := dot_cauchy xs ys
    simp only [dot]
    have huv : 4 * ((a * a * dot ys ys) * (dot xs xs * (b * b)))
        ≤ ((a * a * dot ys ys) + (dot xs xs * (b * b))) ^ 2 := by
      nlinarith [two_mul_le_add_sq (a * a * dot ys ys) (dot xs xs * (b * b))]
    have step1 : 4 * (a * b) ^ 2 * dot xs ys ^ 2
        ≤ 4 * (a * b) ^ 2 * (dot xs xs * dot ys ys) :=
      Nat.mul_le_mul_left _ ih
    have h4 : (2 * (a * b) * dot xs ys) ^ 2
        ≤ ((a * a * dot ys ys) + (dot xs xs * (b * b))) ^ 2 := by
      nlinarith [step1, huv]
    have hkey : 2 * (a * b) * dot xs ys
        ≤ (a * a * dot ys ys) + (dot xs xs * (b * b)) :=
      (Nat.pow_le_pow_iff_left (by omega)).mp h4
    nlinarith [ih, hkey]

theorem effNormSq_pos (v : List Nat) : 1 ≤ effNormSq v := by
  unfold effNormSq
  split <;> omega

theorem simGE_refl (g v : List Nat) : simGE g v v := le_refl _

theorem cross_trans {sa ea sb eb sc ec : Nat} (heb : 1 ≤ eb)
    (h1 : sb * ea ≤ sa * eb) (h2 : sc * eb ≤ sb * ec) :
    sc * ea ≤ sa * ec := by
  have h3 : sc * eb * ea ≤ sb * ec * ea := Nat.mul_le_mul_right ea h2
  have h4 : sb * ea * ec ≤ sa * eb * ec := Nat.mul_le_mul_right ec h1
  have h5 : eb * (sc * ea) ≤ eb * (sa * ec) := by
    calc eb * (sc * ea) = sc * eb * ea := by ring
    _ ≤ sb * ec * ea := h3
    _ = sb * ea * ec := by ring
    _ ≤ sa * eb * ec := h4
    _ = eb * (sa * ec) := by ring
  exact Nat.le_of_mul_le_mul_left h5 (by omega)

theorem simGE_trans (g a b c : List Nat) (h1 : simGE g a b) (h2 : simGE g b c) :
    simGE g a c :=
  cross_trans (effNormSq_pos b) h1 h2

theorem simGE_self_max (g u : List Nat) : simGE g g u := by
  unfold simGE
  by_cases hg : normSq g = 0
  · rw [show dot g u = 0 from dot_zero_left g u hg]
    simp
  · by_cases hu : normSq u = 0
    · have hdu : dot u g = 0 := dot_zero_left u g hu
      rw [show dot g u = 0 from (dot_comm g u).trans hdu]
      simp
    · unfold effNormSq
      rw [if_neg hg, if_neg hu]
      unfold normSq
      have hcs := dot_cauchy g u
      calc dot g u ^ 2 * dot g g
          ≤ (dot g g * dot u u) * dot g g := Nat.mul_le_mul_right _ hcs
      _ = dot g g ^ 2 * dot u u := by ring

/-! ## Argmax lemmas: first maximum semantics of numpy argmax -/

theorem amGo_mem (g : List Nat) : ∀ (cs : List (List Nat)) (bi i : Nat)
    (bv : List Nat),
    (amGo g bi bv i cs = (bi, bv))
    ∨ ∃ k, k < cs.length ∧ amGo g bi bv i cs = (i + k, cs.getD k [])
  | [], bi, i, bv => Or.inl rfl
  | cnd :: rest, bi, i, bv => by
    unfold amGo
    by_cases hgt : simGTb g cnd bv
    · rw [if_pos hgt]
      rcases amGo_mem g rest i (i + 1) cnd with h | ⟨k, hk, h⟩
      · refine Or.inr ⟨0, by simp, ?_⟩
        rw [h]
        simp
      · refine Or.inr ⟨k + 1, by simpa using Nat.succ_lt_succ hk, ?_⟩
        rw [h, show i + 1 + k = i + (k + 1) from by omega, List.getD_cons_succ]
    · rw [if_neg hgt]
      rcases amGo_mem g rest bi (i + 1) bv with h | ⟨k, hk, h⟩
      · exact Or.inl h
      · refine Or.inr ⟨k + 1, by simpa using Nat.succ_lt_succ hk, ?_⟩
        rw [h, show i + 1 + k = i + (k + 1) from by omega, List.getD_cons_succ]

theorem amGo_max (g : List Nat) : ∀ (cs : List (List Nat)) (bi i : Nat)
    (bv : List Nat),
    simGE g (amGo g bi bv i cs).2 bv
    ∧ ∀ cnd ∈ cs, simGE g (amGo g bi bv i cs).2 cnd
  | [], bi, i, bv => ⟨simGE_refl g bv, by simp⟩
  | cnd :: rest, bi, i, bv => by
    unfold amGo
    by_cases hgt : simGTb g cnd bv
    · rw [if_pos hgt]
      obtain ⟨h1, h2⟩ := amGo_max g rest i (i + 1) cnd
      have hcb : simGE g cnd bv := by
        unfold simGTb at hgt
        exact Nat.le_of_lt (of_decide_eq_true hgt)
      refine ⟨simGE_trans g _ cnd bv h1 hcb, ?_⟩
      intro x hx
      rcases List.mem_cons.mp hx with rfl | hx2
      · exact h1
      · exact h2 x hx2
    · rw [if_neg hgt]
      obtain ⟨h1, h2⟩ := amGo_max g rest bi (i + 1) bv
      have hbc : simGE g bv cnd := by
        unfold simGTb at hgt
        simp only [decide_eq_true_eq] at hgt
        exact Nat.le_of_not_lt hgt
      refine ⟨h1, ?_⟩
      intro x hx
      rcases List.mem_cons.mp hx with rfl | hx2
      · exact simGE_trans g _ bv x h1 hbc
      · exact h2 x hx2

theorem amGo_fst_le (g : List Nat) : ∀ (cs : List (List Nat)) (bi i : Nat)
    (bv : List Nat) (j : Nat) (vj : List Nat), bi < i →
    ((j = bi ∧ vj = bv) ∨ ∃ k, k < cs.length ∧ j = i + k ∧ cs.getD k [] = vj) →
    simGE g vj bv → (∀ cnd ∈ cs, simGE g vj cnd) →
    (amGo g bi bv i cs).1 ≤ j
  | [], bi, i, bv, j, vj, _, hj, _, _ => by
    rcases hj with ⟨rfl, _⟩ | ⟨k, hk, _⟩
    · exact le_refl _
    · simp at hk
  | cnd :: rest, bi, i, bv, j, vj, hbi, hj, hgebv, hdom => by
    unfold amGo
    by_cases hgt : simGTb g cnd bv
    · rw [if_pos hgt]
      have hltP : dot g bv ^ 2 * effNormSq cnd < dot g cnd ^ 2 * effNormSq bv := by
        unfold simGTb at hgt
        exact of_decide_eq_true hgt
      rcases hj with ⟨rfl, rfl⟩ | ⟨k, hk, hjeq, hvj⟩
      · exact absurd hltP (by
          have hd := hdom cnd (by simp)
          unfold simGE at hd
          omega)
      · rcases k with _ | k2
        · simp only [List.getD_cons_zero] at hvj
          subst hvj
          have hres : (amGo g i cnd (i + 1) rest).1 ≤ i :=
            amGo_fst_le g rest i (i + 1) cnd i cnd (by omega)
              (Or.inl ⟨rfl, rfl⟩) (simGE_refl g cnd)
              (fun x hx => hdom x (List.mem_cons_of_mem cnd hx))
          omega
        · simp only [List.getD_cons_succ] at hvj
          exact amGo_fst_le g rest i (i + 1) cnd j vj (by omega)
            (Or.inr ⟨k2, by simpa using hk, by omega, hvj⟩)
            (hdom cnd (by simp))
            (fun x hx => hdom x (List.mem_cons_of_mem cnd hx))
    · rw [if_neg hgt]
      have hle : simGE g bv cnd := by
        unfold simGTb at hgt
        simp only [decide_eq_true_eq] at hgt
        exact Nat.le_of_not_lt hgt
      rcases hj with ⟨rfl, rfl⟩ | ⟨k, hk, hjeq, hvj⟩
      · exact amGo_fst_le g rest j (i + 1) vj j vj (by omega)
          (Or.inl ⟨rfl, rfl⟩) (simGE_refl g vj)
          (fun x hx => hdom x (List.mem_cons_of_mem cnd hx))
      · rcases k with _ | k2
        · simp only [List.getD_cons_zero] at hvj
          subst hvj
          have hbv_dom : ∀ x ∈ rest, simGE g bv x := fun x hx =>
            simGE_trans g bv cnd x hle (hdom x (List.mem_cons_of_mem cnd hx))
          have hres : (amGo g bi bv (i + 1) rest).1 ≤ bi :=
            amGo_fst_le g rest bi (i + 1) bv bi bv (by omega)
              (Or.inl ⟨rfl, rfl⟩) (simGE_refl g bv) hbv_dom
          omega
        · simp only [List.getD_cons_succ] at hvj
          exact amGo_fst_le g rest bi (i + 1) bv j vj (by omega)
            (Or.inr ⟨k2, by simpa using hk, by omega, hvj⟩) hgebv
            (fun x hx => hdom x (List.mem_cons_of_mem cnd hx))

/-! ## Claim C6 -/

/-- C6 counterexample: the claim says a candidate whose fixed-width
tokenization equals the generated span exactly must be selected regardless
of the similarity scores of every other candidate.  For the all-pad span
[0, 0] the empty-string candidate tokenizes to exactly [0, 0], yet every
candidate scores cosine similarity 0 against a zero vector (the sklearn
zero-norm convention), and the first-occurrence argmax selects the earlier
candidate x instead. -/
theorem claim6_counterexample :
    tokFixed exTok 2 "" = [0, 0]
    ∧ bestMatch exTok 2 [0, 0] ["x", ""] = some "x"
    ∧ ("x" : String) ≠ "" := by
  refine ⟨rfl, rfl, by decide⟩

/-- C6 amended: if some candidate tokenizes (padded and truncated to
max_column_len, no special tokens) to exactly the generated span, then the
matcher selects a candidate of maximal similarity whose index is at most the
exact-match index: no other candidate scores strictly higher than the
selected one, and ties are broken by first occurrence, so the exact match is
selected unless an earlier candidate attains an equal score. -/
theorem claim6_exact_match (tok : Tokenizer) (mcl : Nat) (g : List Nat)
    (options : List String) (j : Nat) (hj : j < options.length)
    (hexact : tokFixed tok mcl (options.getD j "") = g) :
    ∃ i, argmaxSim g (options.map (tokFixed tok mcl)) = some i
      ∧ bestMatch tok mcl g options = some (options.getD i "")
      ∧ i ≤ j
      ∧ ∀ k, k < options.length →
          simGE g ((options.map (tokFixed tok mcl)).getD i [])
            ((options.map (tokFixed tok mcl)).getD k []) := by
  have hvj : (options.map (tokFixed tok mcl)).getD j [] = g := by
    rw [getD_map (tokFixed tok mcl) options j [] "" hj, hexact]
  obtain ⟨c0, rest, hcands⟩ : ∃ c0 rest,
      options.map (tokFixed tok mcl) = c0 :: rest := by
    rcases options with _ | ⟨o, os⟩
    · simp at hj
    · exact ⟨tokFixed tok mcl o, os.map (tokFixed tok mcl), rfl⟩
  have hlen : (options.map (tokFixed tok mcl)).length = options.length :=
    List.length_map _ _
  refine ⟨(amGo g 0 c0 1 rest).1, ?_, ?_, ?_, ?_⟩
  · rw [argmaxSim.eq_def, hcands]
  · rw [bestMatch, argmaxSim.eq_def, hcands]
    rfl
  · -- the exact match dominates every candidate, so the first maximum lands
    -- at or before its index
    apply amGo_fst_le g rest 0 1 c0 j
      ((options.map (tokFixed tok mcl)).getD j []) (by omega)
    · rcases j with _ | j2
      · exact Or.inl ⟨rfl, by simp [hcands]⟩
      · refine Or.inr ⟨j2, ?_, by omega, ?_⟩
        · have hjlt : j2 + 1 < (c0 :: rest).length := by
            rw [← hcands, hlen]
            exact hj
          simpa using hjlt
        · rw [hcands, List.getD_cons_succ]
    · rw [hvj]
      exact simGE_self_max g c0
    · intro x hx
      rw [hvj]
      exact simGE_self_max g x
  · intro k hk
    have hrv : (amGo g 0 c0 1 rest).2
        = (options.map (tokFixed tok mcl)).getD (amGo g 0 c0 1 rest).1 [] := by
      rcases amGo_mem g rest 0 1 c0 with h | ⟨k2, hk2, h⟩
      · rw [h, hcands]
        rfl
      · rw [h, hcands]
        rw [show 1 + k2 = k2 + 1 from by omega, List.getD_cons_succ]
    obtain ⟨hmax1, hmax2⟩ := amGo_max g rest 0 1 c0
    rw [← hrv, hcands]
    have hkmem : (options.map (tokFixed tok mcl)).getD k []
        ∈ options.map (tokFixed tok mcl) :=
      getD_mem _ k [] (by rw [hlen]; exact hk)
    rw [hcands] at hkmem
    rcases List.mem_cons.mp hkmem with heq | hmem
    · rw [heq]
      exact hmax1
    · exact hmax2 _ hmem

/-- C6 witness: with candidates [x, v1] and the generated span equal to the
exact tokenization of v1 at index 1, the matcher selects index 1 (v1) and no
candidate scores strictly higher. -/
theorem claim6_witness :
    ∃ i, argmaxSim [21, 0] ((["x", "v1"] : List String).map (tokFixed exTok 2))
          = some i
      ∧ bestMatch exTok 2 [21, 0] ["x", "v1"]
          = some ((["x", "v1"] : List String).getD i "")
      ∧ i ≤ 1
      ∧ ∀ k, k < (["x", "v1"] : List String).length →
          simGE [21, 0]
            (((["x", "v1"] : List String).map (tokFixed exTok 2)).getD i [])
            (((["x", "v1"] : List String).map (tokFixed exTok 2)).getD k []) :=
  claim6_exact_match exTok 2 [21, 0] ["x", "v1"] 1 (by decide) (by decide)

end Mhtabby
